import Mathlib

/-!
Verification of the streaming design-agent core of `design.appclub.dev`.

The development shallowly embeds the three core modules of the repository:

* the versioned Document Store (`useProjectState`: `upsertScreen`,
  `restoreVersion`),
* the tool event handler (`createToolEventHandler` / `handleChunk` and
  `getOrCreateInvocation`),
* the SSE frame decoder (`parseSSEStream`), and
* the server-side partial argument extractor (`onUpsertInputDelta`
  in `server/api/chat.post.ts`).

JavaScript objects with optional fields are embedded as structures of
`Option` fields; JS `Map` and `Set` are embedded as insertion-ordered
association lists and lists of keys, which matches the iteration and
update order of the source.  JSON deep copies
(serialize-then-deserialize) become plain value copies, which in a pure
functional embedding are automatic.  `Date.now()` timestamps are passed
in explicitly as a `now : Nat` argument.
-/

/-! ## Document Store (`useProjectState`) -/

/-- A design screen, mirroring `interface Screen` of `useProjectState`. -/
structure Screen where
  id : String
  name : String
  html : String
  css : String
  x : Int
  y : Int
deriving DecidableEq, Repr

/-- The argument of `upsertScreen`: a JS object of shape
`Partial<Screen> & \x7b id: string \x7d` — `id` is present, every other
field optional. -/
structure ScreenPatch where
  id : String
  name : Option String := none
  html : Option String := none
  css : Option String := none
  x : Option Int := none
  y : Option Int := none
deriving DecidableEq, Repr

/-- One history snapshot, mirroring `interface HistoryItem`. -/
structure HistoryItem where
  timestamp : Nat
  screens : List Screen
deriving DecidableEq, Repr

/-- The store state: the `screens` and `history` refs of
`useProjectState`. -/
structure ProjectState where
  screens : List Screen
  history : List HistoryItem
deriving DecidableEq, Repr

/-- The merge branch of `upsertScreen`:
`screens.value[index] = \x7b ...screens.value[index], ...screen \x7d`.
A field present in the patch overwrites, an absent field keeps the
stored value. -/
def mergeScreen (old : Screen) (p : ScreenPatch) : Screen :=
  { id := p.id
    name := p.name.getD old.name
    html := p.html.getD old.html
    css := p.css.getD old.css
    x := p.x.getD old.x
    y := p.y.getD old.y }

/-- `screens.value.findIndex(s => s.id === screen.id)` followed by the
in-place assignment of the merged screen: replaces the first screen
whose id matches, returns `none` when no screen matches. -/
def upsertList : List Screen → ScreenPatch → Option (List Screen)
  | [], _ => none
  | s :: rest, p =>
    if s.id = p.id then some (mergeScreen s p :: rest)
    else (upsertList rest p).map (fun l => s :: l)

/-- The create branch of `upsertScreen`: auto-positioning
(`maxX = screens.reduce((max, s) => Math.max(max, s.x + 400), 0)`)
and defaults, then the patch spread overwrites the defaults. -/
def newScreen (existing : List Screen) (p : ScreenPatch) : Screen :=
  let maxX := existing.foldl (fun m s => max m (s.x + 400)) 0
  { id := p.id
    name := p.name.getD "Untitled Screen"
    html := p.html.getD ""
    css := p.css.getD ""
    x := p.x.getD (maxX + 50)
    y := p.y.getD 50 }

/-- `upsertScreen(screen, options)` of `useProjectState`.  Unless
`skipHistory` is set, a snapshot of the current screens is pushed onto
`history` first; then the screen is merged in place or appended. -/
def upsertScreen (st : ProjectState) (p : ScreenPatch) (skipHistory : Bool)
    (now : Nat) : ProjectState :=
  let st1 :=
    if skipHistory then st
    else { st with history := st.history ++ [{ timestamp := now, screens := st.screens }] }
  match upsertList st1.screens p with
  | some l => { st1 with screens := l }
  | none => { st1 with screens := st1.screens ++ [newScreen st1.screens p] }

/-- `restoreVersion(index)` of `useProjectState`: if `history[index]`
exists, replace the screens by that snapshot, otherwise do nothing.
The JS index is a number; indexing a JS array at a negative or
out-of-range position yields `undefined`, hence the no-op guard. -/
def restoreVersion (st : ProjectState) (index : Int) : ProjectState :=
  if 0 ≤ index then
    match st.history[index.toNat]? with
    | some item => { st with screens := item.screens }
    | none => st
  else st

/-! ## Tool Invocation Tracker and Orchestrator (`createToolEventHandler`) -/

/-- Invocation state, mirroring `state: 'call' | 'result' | 'error'`
of `interface ToolInvocation` in `composables/chat/types.ts`. -/
inductive InvState where
  | call
  | result
  | error
deriving DecidableEq, Repr

/-- A JSON object as carried by tool input/output payloads.  The
fields the handler reads (`id`, `name`, `html`, `css`, `index`) are
optional, matching the dynamic `typeof` checks and type casts in the
source. -/
structure ToolPayload where
  id : Option String := none
  name : Option String := none
  html : Option String := none
  css : Option String := none
  index : Option Int := none
deriving DecidableEq, Repr

/-- `interface ToolInvocation` of `composables/chat/types.ts`:
`toolCallId`, optional `toolName`, a state, and the optional
`args` / `result` / `errorText` fields filled in over the lifecycle. -/
structure ToolInvocation where
  toolCallId : String
  toolName : Option String := none
  state : InvState := .call
  args : Option ToolPayload := none
  result : Option ToolPayload := none
  errorText : Option String := none
deriving DecidableEq, Repr

/-- One SSE chunk as consumed by `handleChunk`.  The payload fields are
those the handler actually reads after its casts;
`data-editing-start` carries the optional `data.screenId` and
`data.toolCallId`, and any unrecognized `type` is `other`. -/
inductive Chunk where
  | textDelta (delta : String)
  | toolInputStart (toolCallId : String) (toolName : String)
  | dataEditingStart (screenId : Option String) (toolCallId : Option String)
  | toolInputAvailable (toolCallId : String) (toolName : String) (input : Option ToolPayload)
  | toolOutputAvailable (toolCallId : String) (output : Option ToolPayload)
  | toolOutputError (toolCallId : String) (errorText : String)
  | errorChunk (errorText : String)
  | other
deriving DecidableEq, Repr

/-- JS truthiness of an optional string: `undefined` and the empty
string are falsy. -/
def strTruthy : Option String → Bool
  | some s => s ≠ ""
  | none => false

/-- The invocation object `getOrCreateInvocation` pushes on first sight
of a call id: `\x7b toolCallId, toolName, state: 'call' \x7d`. -/
def freshInvocation (tcid : String) (tn : Option String) : ToolInvocation :=
  { toolCallId := tcid, toolName := tn, state := .call }

/-- The guarded assignment
`if (toolName && !existing.toolName) existing.toolName = toolName`
performed on an existing invocation. -/
def updateToolName (inv : ToolInvocation) (tn : Option String) : ToolInvocation :=
  if strTruthy tn && !(strTruthy inv.toolName) then { inv with toolName := tn } else inv

/-- `getOrCreateInvocation(toolCallId, toolName?)`: find the first
invocation with this id; if found, fill in a missing `toolName`
(`if (toolName && !existing.toolName)`) and return it; otherwise push a
fresh invocation in state `call`.  Returns the updated list and the
invocation the source function returns a reference to. -/
def getOrCreateInvocation :
    List ToolInvocation → String → Option String → List ToolInvocation × ToolInvocation
  | [], tcid, tn => ([freshInvocation tcid tn], freshInvocation tcid tn)
  | inv :: rest, tcid, tn =>
    if inv.toolCallId = tcid then
      let inv1 := updateToolName inv tn
      (inv1 :: rest, inv1)
    else
      let r := getOrCreateInvocation rest tcid tn
      (inv :: r.1, r.2)

/-- In the source, the invocation returned by `getOrCreateInvocation`
is then mutated through the reference (`invocation.state = ...`).  In
the embedding this becomes replacing the first invocation with that
`toolCallId` (the one the reference points to). -/
def setFirstInv : List ToolInvocation → String → ToolInvocation → List ToolInvocation
  | [], _, _ => []
  | inv :: rest, tcid, newInv =>
    if inv.toolCallId = tcid then newInv :: rest
    else inv :: setFirstInv rest tcid newInv

/-- `Map.set`: update the entry in place if the key exists, else append
(JS `Map` preserves insertion order). -/
def mapSet {α : Type} : List (String × α) → String → α → List (String × α)
  | [], k, v => [(k, v)]
  | (k', v') :: rest, k, v =>
    if k' = k then (k, v) :: rest else (k', v') :: mapSet rest k v

/-- `Map.delete`: drop the entry with this key. -/
def mapDelete {α : Type} (m : List (String × α)) (k : String) : List (String × α) :=
  m.filter (fun p => p.1 ≠ k)

/-- The mutable state `createToolEventHandler` closes over: the
assistant message being built (content and invocation list), the
`toolCallIdToScreenId` map, the project store, and the two UI flags
behind `setEditingScreenId` / `setIsDesigning`. -/
structure HandlerState where
  content : String
  invocations : List ToolInvocation
  toolCallIdToScreenId : List (String × String)
  store : ProjectState
  editingScreenId : Option String
  isDesigning : Bool
deriving DecidableEq, Repr

/-- `handleChunk` of `createToolEventHandler`: one step of the
orchestrator, routing a chunk to the tracker and firing the Document
Store side effects.  `now` stands for `Date.now()` at this step.
Payload shapes follow the tool contracts: the `output as ...` casts of
the source are rendered as matches on the corresponding optional
fields (`id` for `upsertScreen`, `index` for `restoreVersion`). -/
def handleChunk (s : HandlerState) (c : Chunk) (now : Nat) : HandlerState :=
  match c with
  | .textDelta d => { s with content := s.content ++ d }
  | .toolInputStart tcid tn =>
    let r := getOrCreateInvocation s.invocations tcid (some tn)
    let s1 := { s with invocations := r.1 }
    if tn = "upsertScreen" then { s1 with isDesigning := true } else s1
  | .dataEditingStart screenId? toolCallId? =>
    match screenId?, toolCallId? with
    | some screenId, some toolCallId =>
      let placeholder : ScreenPatch := { id := screenId, name := some "Designing..." }
      { s with
        toolCallIdToScreenId := mapSet s.toolCallIdToScreenId toolCallId screenId
        editingScreenId := some screenId
        store := upsertScreen s.store placeholder true now }
    | _, _ => s
  | .toolInputAvailable tcid tn input =>
    let r := getOrCreateInvocation s.invocations tcid (some tn)
    let inv := { r.2 with args := input, state := InvState.call }
    let s1 := { s with invocations := setFirstInv r.1 tcid inv }
    if inv.toolName = some "upsertScreen" then
      match input with
      | some inp =>
        match inp.id with
        | some i =>
          let placeholder : ScreenPatch := { id := i, name := some (inp.name.getD "Untitled Screen") }
          { s1 with
            toolCallIdToScreenId := mapSet s1.toolCallIdToScreenId tcid i
            editingScreenId := some i
            store := upsertScreen s1.store placeholder true now }
        | none => s1
      | none => s1
    else s1
  | .toolOutputAvailable tcid output =>
    let r := getOrCreateInvocation s.invocations tcid none
    let inv := { r.2 with state := InvState.result, result := output }
    let s1 := { s with invocations := setFirstInv r.1 tcid inv }
    if inv.toolName = some "upsertScreen" then
      match output with
      | some o =>
        let s2 :=
          match o.id with
          | some i =>
            let patch : ScreenPatch := { id := i, name := o.name, html := o.html, css := o.css }
            { s1 with store := upsertScreen s1.store patch false now }
          | none => s1
        { s2 with
          toolCallIdToScreenId := mapDelete s2.toolCallIdToScreenId tcid
          editingScreenId := none
          isDesigning := false }
      | none => s1
    else if inv.toolName = some "restoreVersion" then
      match output with
      | some o =>
        match o.index with
        | some idx => { s1 with store := restoreVersion s1.store idx }
        | none => s1
      | none => s1
    else s1
  | .toolOutputError tcid err =>
    let r := getOrCreateInvocation s.invocations tcid none
    let inv := { r.2 with state := InvState.error, errorText := some err }
    let s1 := { s with invocations := setFirstInv r.1 tcid inv }
    if inv.toolName = some "upsertScreen" then
      { s1 with
        toolCallIdToScreenId := mapDelete s1.toolCallIdToScreenId tcid
        editingScreenId := none
        isDesigning := false }
    else s1
  | .errorChunk _ => s
  | .other => s

/-- Process a sequence of chunks, each with its `Date.now()` value. -/
def runChunks (s : HandlerState) : List (Chunk × Nat) → HandlerState
  | [] => s
  | (c, now) :: rest => runChunks (handleChunk s c now) rest

/-- First invocation registered for a call id, as
`toolInvocations.find(i => i.toolCallId === toolCallId)`. -/
def findInv : List ToolInvocation → String → Option ToolInvocation
  | [], _ => none
  | inv :: rest, tcid =>
    if inv.toolCallId = tcid then some inv else findInv rest tcid

/-! ## Frame Decoder (`parseSSEStream`)

The decoder works on text chunks (the output of `TextDecoder.decode`
in streaming mode), embedded as lists of characters.  Each chunk is
stripped of carriage returns and appended to a growing buffer; complete
frames (separated by a blank line, i.e. two consecutive newlines) are
then repeatedly cut off the front of the buffer.  The loop that cuts
frames is embedded with explicit fuel; one frame is consumed per step,
so `buffer.length` is always enough fuel.
-/

/-- `.replaceAll(String.fromCharCode(13), per-chunk carriage-return removal)`:
drop every CR before buffering. -/
def stripCR (l : List Char) : List Char := l.filter (fun c => c ≠ '\r')

/-- `buffer.indexOf(two newlines)` followed by the two `slice`s: split
the buffer at the first blank-line separator into the raw event before
it and the remainder after it; `none` when no separator is present. -/
def splitFrame : List Char → Option (List Char × List Char)
  | [] => none
  | [_] => none
  | c :: d :: rest =>
    if c = '\n' ∧ d = '\n' then some ([], rest)
    else (splitFrame (d :: rest)).map (fun pr => (c :: pr.1, pr.2))

/-- `rawEvent.split(newline)`. -/
def splitLines : List Char → List (List Char)
  | [] => [[]]
  | c :: rest =>
    if c = '\n' then [] :: splitLines rest
    else
      match splitLines rest with
      | [] => [[c]]
      | line :: more => (c :: line) :: more

/-- The SSE record prefix `data:`. -/
def dataPrefix : List Char := "data:".toList

/-- `l.slice(5).trimStart()`: strip the record prefix and
leading whitespace of one data line. -/
def payloadOfLine (l : List Char) : List Char :=
  (l.drop 5).dropWhile Char.isWhitespace

/-- `.join(newline)` of the payload lines. -/
def joinNL : List (List Char) → List Char
  | [] => []
  | [l] => l
  | l :: ls => l ++ '\n' :: joinNL ls

/-- The `data:` lines of one raw event:
`rawEvent.split(newline).filter(l => l.startsWith(prefix))`. -/
def frameDataLines (rawEvent : List Char) : List (List Char) :=
  (splitLines rawEvent).filter (fun l => dataPrefix.isPrefixOf l)

/-- The payload of one raw event: prefix-stripped data lines rejoined
with newlines. -/
def frameData (rawEvent : List Char) : List Char :=
  joinNL ((frameDataLines rawEvent).map payloadOfLine)

/-- Result of draining the buffer: the payload strings handed to the
parse-and-handle step in order, the remaining partial buffer, and
whether the `[DONE]` sentinel was reached. -/
structure DrainResult where
  out : List (List Char)
  rem : List Char
  done : Bool
deriving DecidableEq, Repr

/-- The inner `while` loop of `parseSSEStream`, with fuel: cut one
frame, keep only its `data:` lines, strip prefixes, rejoin with
newlines; skip the frame if it has no data lines; stop at `[DONE]`;
otherwise emit the payload and continue. -/
def drainFuel : Nat → List Char → DrainResult
  | 0, b => ⟨[], b, false⟩
  | fuel + 1, b =>
    match splitFrame b with
    | none => ⟨[], b, false⟩
    | some (rawEvent, rest) =>
      if (frameDataLines rawEvent).isEmpty then drainFuel fuel rest
      else if frameData rawEvent = "[DONE]".toList then ⟨[], rest, true⟩
      else
        ⟨frameData rawEvent :: (drainFuel fuel rest).out,
          (drainFuel fuel rest).rem, (drainFuel fuel rest).done⟩

/-- Drain the buffer completely (each loop iteration removes at least
two characters, so `b.length` steps always suffice). -/
def drain (b : List Char) : DrainResult := drainFuel b.length b

/-- The loop state of `parseSSEStream` between two reads: the pending
partial buffer and the `streamDone` flag. -/
structure SSEState where
  buffer : List Char
  streamDone : Bool
deriving DecidableEq, Repr

/-- One iteration of the outer read loop for one received chunk:
once `streamDone` is set no further chunk is processed; otherwise the
CR-stripped chunk is appended to the buffer and the buffer drained. -/
def feedChunk (st : SSEState) (chunk : List Char) : SSEState × List (List Char) :=
  if st.streamDone then (st, [])
  else
    let r := drain (st.buffer ++ stripCR chunk)
    ({ buffer := r.rem, streamDone := r.done }, r.out)

/-- Feed a sequence of chunks, collecting all emitted payloads. -/
def runSSEFrom (st : SSEState) : List (List Char) → SSEState × List (List Char)
  | [] => (st, [])
  | c :: cs =>
    let r := feedChunk st c
    let r2 := runSSEFrom r.1 cs
    (r2.1, r.2 ++ r2.2)

/-- `parseSSEStream` on a whole chunked byte stream: the ordered
sequence of payload strings passed on to the JSON-parse-and-handle
step (the trailing incomplete buffer at reader exhaustion is
discarded, exactly as in the source). -/
def runSSE (chunks : List (List Char)) : List (List Char) :=
  (runSSEFrom { buffer := [], streamDone := false } chunks).2

/-! ## Partial Argument Extractor (`onUpsertInputDelta` in `chat.post.ts`) -/

/-- One attempt of the pattern
`"id" \s* : \s* "([^"]+)"` anchored at the head of the text:
the literal quoted key `id`, optional whitespace, a colon, optional
whitespace, then a non-empty double-quoted value, whose body is
returned.  (No backtracking is needed: the whitespace runs are maximal
and the value body is everything up to the next quote.) -/
def matchIdAt : List Char → Option (List Char)
  | '"' :: 'i' :: 'd' :: '"' :: rest =>
    match rest.dropWhile Char.isWhitespace with
    | ':' :: r2 =>
      match r2.dropWhile Char.isWhitespace with
      | '"' :: r4 =>
        let v := r4.takeWhile (fun c => c ≠ '"')
        if v.isEmpty then none
        else if v.length < r4.length then some v else none
      | _ => none
    | _ => none
  | _ => none

/-- `updated.match(pattern)`: scan left to right for the first
position where the id pattern matches, returning the captured value. -/
def extractId : List Char → Option (List Char)
  | [] => none
  | c :: rest =>
    match matchIdAt (c :: rest) with
    | some v => some v
    | none => extractId rest

/-- The closure state of the chat endpoint: the per-call-id
`upsertInputBuffers` map and the `sentEditingStart` set. -/
structure ExtractState where
  upsertInputBuffers : List (String × String)
  sentEditingStart : List String
deriving DecidableEq, Repr

/-- `Map.get`. -/
def mapGet (m : List (String × String)) (k : String) : Option String :=
  (m.find? (fun p => p.1 = k)).map (fun p => p.2)

/-- `onUpsertInputDelta(toolCallId, delta)`: append the delta to the
call's buffer; if no `data-editing-start` was sent yet for this call,
try the id pattern on the whole accumulated buffer and, on a match,
latch the call id and emit the extracted screen id (the
`writer.write` of the `data-editing-start` event). -/
def onUpsertInputDelta (st : ExtractState) (toolCallId delta : String) :
    ExtractState × Option String :=
  let current := (mapGet st.upsertInputBuffers toolCallId).getD ""
  let updated := current ++ delta
  let st1 := { st with upsertInputBuffers := mapSet st.upsertInputBuffers toolCallId updated }
  if st1.sentEditingStart.contains toolCallId then (st1, none)
  else
    match extractId updated.toList with
    | some v =>
      ({ st1 with sentEditingStart := st1.sentEditingStart ++ [toolCallId] },
        some (String.mk v))
    | none => (st1, none)

/-- Feed a sequence of `(toolCallId, delta)` pairs, collecting the
emitted `(toolCallId, screenId)` early-extraction signals in order. -/
def runExtractor (st : ExtractState) :
    List (String × String) → ExtractState × List (String × String)
  | [] => (st, [])
  | (tcid, d) :: rest =>
    let r := onUpsertInputDelta st tcid d
    let r2 := runExtractor r.1 rest
    (r2.1, (match r.2 with | some v => [(tcid, v)] | none => []) ++ r2.2)

/-- The early-extraction signals emitted for one call id, in order. -/
def emittedFor (tcid : String) (out : List (String × String)) : List (String × String) :=
  out.filter (fun p => p.1 = tcid)

/-! ### Basic store lemmas -/

theorem upsertScreen_history_skip (st : ProjectState) (p : ScreenPatch) (now : Nat) :
    (upsertScreen st p true now).history = st.history := by
  unfold upsertScreen
  rcases h : upsertList st.screens p with _ | l <;> simp [h]

theorem upsertScreen_history_record (st : ProjectState) (p : ScreenPatch) (now : Nat) :
    (upsertScreen st p false now).history
      = st.history ++ [{ timestamp := now, screens := st.screens }] := by
  unfold upsertScreen
  rcases h : upsertList st.screens p with _ | l <;> simp [h]

theorem upsertScreen_history_get? (st : ProjectState) (p : ScreenPatch)
    (skip : Bool) (now : Nat) (i : Nat) (item : HistoryItem)
    (h : st.history[i]? = some item) :
    (upsertScreen st p skip now).history[i]? = some item := by
  cases skip
  · rw [upsertScreen_history_record]
    rw [List.getElem?_append_left]
    · exact h
    · exact (List.getElem?_eq_some.mp h).1
  · rw [upsertScreen_history_skip]; exact h

theorem restoreVersion_history (st : ProjectState) (i : Int) :
    (restoreVersion st i).history = st.history := by
  unfold restoreVersion
  split
  · cases st.history[i.toNat]? <;> simp
  · rfl

/-- **C4.** For every project state and every patch, `upsertScreen` with
`skipHistory = true` leaves `history.length` unchanged, and
`upsertScreen` without `skipHistory` (i.e. with the default
`skipHistory = false`) increases `history.length` by exactly one. -/
theorem upsertScreen_history_length (st : ProjectState) (p : ScreenPatch) (now : Nat) :
    (upsertScreen st p true now).history.length = st.history.length
      ∧ (upsertScreen st p false now).history.length = st.history.length + 1 := by
  constructor
  · rw [upsertScreen_history_skip]
  · rw [upsertScreen_history_record]; simp

/-- **C8.** For every project state and every integer index `i` such
that `history[i]` does not exist (negative or at least
`history.length`), `restoreVersion i` is a no-op: the state is returned
unchanged (screens and history alike), with no error. -/
theorem restoreVersion_out_of_range (st : ProjectState) (i : Int)
    (h : i < 0 ∨ (st.history.length : Int) ≤ i) :
    restoreVersion st i = st := by
  unfold restoreVersion
  rcases h with h | h
  · rw [if_neg (by omega)]
  · rw [if_pos (by omega)]
    have hlen : st.history.length ≤ i.toNat := by omega
    rw [List.getElem?_eq_none hlen]

/-- Witness for `restoreVersion_out_of_range` at a concrete state and
index. -/
theorem restoreVersion_out_of_range_witness :
    restoreVersion { screens := [], history := [] } 3 = { screens := [], history := [] } :=
  restoreVersion_out_of_range { screens := [], history := [] } 3 (by right; decide)

theorem restoreVersion_screens_of_get? (st : ProjectState) (i : Nat)
    (item : HistoryItem) (h : st.history[i]? = some item) :
    (restoreVersion st (i : Int)).screens = item.screens := by
  unfold restoreVersion
  rw [if_pos (by positivity)]
  simp only [Int.toNat_natCast, h]

/-- **C5.** For every project state with a valid history index `i`,
`restoreVersion i`, then any `upsertScreen`, then `restoreVersion i`
again leaves the screens deep-equal to the snapshot `history[i].screens`
as it was before the sequence; the stored snapshot itself is still
intact afterwards. -/
theorem restoreVersion_idempotent_isolated (st : ProjectState) (i : Nat)
    (item : HistoryItem) (p : ScreenPatch) (skip : Bool) (now : Nat)
    (h : st.history[i]? = some item) :
    (restoreVersion (upsertScreen (restoreVersion st (i : Int)) p skip now) (i : Int)).screens
        = item.screens
      ∧ (restoreVersion (upsertScreen (restoreVersion st (i : Int)) p skip now) (i : Int)).history[i]?
        = some item := by
  have h1 : (restoreVersion st (i : Int)).history[i]? = some item := by
    rw [restoreVersion_history]; exact h
  have h2 : (upsertScreen (restoreVersion st (i : Int)) p skip now).history[i]? = some item :=
    upsertScreen_history_get? _ p skip now i item h1
  refine ⟨restoreVersion_screens_of_get? _ i item h2, ?_⟩
  rw [restoreVersion_history]; exact h2

/-- Witness for `restoreVersion_idempotent_isolated`: a concrete state
with one history entry, restored, updated and restored again. -/
theorem restoreVersion_idempotent_isolated_witness :
    (restoreVersion
        (upsertScreen
          (restoreVersion
            { screens := [{ id := "a", name := "A", html := "", css := "", x := 0, y := 0 }],
              history := [{ timestamp := 7, screens := [] }] }
            (0 : Int))
          { id := "a", html := some "<p>" } false 9)
        (0 : Int)).screens = [] := by
  have h := restoreVersion_idempotent_isolated
    { screens := [{ id := "a", name := "A", html := "", css := "", x := 0, y := 0 }],
      history := [{ timestamp := 7, screens := [] }] }
    0 { timestamp := 7, screens := [] } { id := "a", html := some "<p>" } false 9 (by decide)
  exact h.1

theorem upsertList_eq_none (l : List Screen) (p : ScreenPatch)
    (h : ∀ s ∈ l, s.id ≠ p.id) : upsertList l p = none := by
  induction l with
  | nil => rfl
  | cons s rest ih =>
    unfold upsertList
    rw [if_neg (h s (by simp))]
    rw [ih (fun t ht => h t (by simp [ht]))]
    rfl

theorem upsertList_eq_some (pre : List Screen) (old : Screen) (post : List Screen)
    (p : ScreenPatch) (hpre : ∀ s ∈ pre, s.id ≠ p.id) (hold : old.id = p.id) :
    upsertList (pre ++ old :: post) p = some (pre ++ mergeScreen old p :: post) := by
  induction pre with
  | nil => simp [upsertList, hold]
  | cons s rest ih =>
    simp only [List.cons_append, upsertList]
    rw [if_neg (hpre s (by simp))]
    simp only [List.append_eq]
    rw [ih (fun t ht => hpre t (by simp [ht]))]
    rfl

/-- **C6.** For every project state containing a screen with the
patch's id (the first such screen, earlier screens having different
ids), `upsertScreen` merges shallowly: each provided field overwrites,
each omitted field (name, html, css, x, y) keeps its previous value,
and every other screen is untouched. -/
theorem upsertScreen_merges_shallowly (st : ProjectState) (p : ScreenPatch)
    (skip : Bool) (now : Nat) (pre : List Screen) (old : Screen) (post : List Screen)
    (hscreens : st.screens = pre ++ old :: post)
    (hpre : ∀ s ∈ pre, s.id ≠ p.id) (hold : old.id = p.id) :
    (upsertScreen st p skip now).screens
      = pre
        ++ ({ id := p.id
              name := p.name.getD old.name
              html := p.html.getD old.html
              css := p.css.getD old.css
              x := p.x.getD old.x
              y := p.y.getD old.y } : Screen)
        :: post := by
  have hu : upsertList st.screens p = some (pre ++ mergeScreen old p :: post) := by
    rw [hscreens]; exact upsertList_eq_some pre old post p hpre hold
  cases skip <;> simp [upsertScreen, hu, mergeScreen]

/-- Witness for `upsertScreen_merges_shallowly`: patching only `html`
of an existing screen keeps its name, css and position. -/
theorem upsertScreen_merges_shallowly_witness :
    (upsertScreen
        { screens := [{ id := "a", name := "A", html := "", css := "c", x := 3, y := 4 }],
          history := [] }
        { id := "a", html := some "<p>" } false 5).screens
      = [{ id := "a", name := "A", html := "<p>", css := "c", x := 3, y := 4 }] := by
  have h := upsertScreen_merges_shallowly
    { screens := [{ id := "a", name := "A", html := "", css := "c", x := 3, y := 4 }],
      history := [] }
    { id := "a", html := some "<p>" } false 5
    [] { id := "a", name := "A", html := "", css := "c", x := 3, y := 4 } []
    rfl (by simp) rfl
  simpa using h

/-- **C9.** (Implicit claim.) The snapshot pushed by a
history-recording `upsertScreen` captures the effect of earlier
`skipHistory` upserts: after a `skipHistory` placeholder upsert of a
previously absent id `X` followed by a history-recording upsert, the
newest history item's screens contain the placeholder screen `X`, and
restoring that newest snapshot brings the placeholder back. -/
theorem history_snapshot_contains_placeholder (st : ProjectState) (X nm : String)
    (now1 now2 : Nat) (p2 : ScreenPatch)
    (habsent : ∀ s ∈ st.screens, s.id ≠ X) :
    (∃ s ∈ (upsertScreen st { id := X, name := some nm } true now1).screens,
        s.id = X ∧ s.name = nm)
      ∧ (upsertScreen (upsertScreen st { id := X, name := some nm } true now1) p2 false now2).history.getLast?
        = some { timestamp := now2,
                 screens := (upsertScreen st { id := X, name := some nm } true now1).screens }
      ∧ ∃ s ∈ (restoreVersion
            (upsertScreen (upsertScreen st { id := X, name := some nm } true now1) p2 false now2)
            ((upsertScreen (upsertScreen st { id := X, name := some nm } true now1) p2 false now2).history.length - 1 : Int)).screens,
          s.id = X ∧ s.name = nm := by
  set st1 := upsertScreen st { id := X, name := some nm } true now1 with hst1
  have hnone : upsertList st.screens { id := X, name := some nm } = none :=
    upsertList_eq_none st.screens _ habsent
  have hscreens1 : st1.screens
      = st.screens ++ [newScreen st.screens { id := X, name := some nm }] := by
    rw [hst1]; simp [upsertScreen, hnone]
  have hmem : ∃ s ∈ st1.screens, s.id = X ∧ s.name = nm := by
    refine ⟨newScreen st.screens { id := X, name := some nm }, ?_, rfl, rfl⟩
    rw [hscreens1]; simp
  have hhist2 : (upsertScreen st1 p2 false now2).history
      = st1.history ++ [{ timestamp := now2, screens := st1.screens }] :=
    upsertScreen_history_record st1 p2 now2
  refine ⟨hmem, ?_, ?_⟩
  · rw [hhist2]; exact List.getLast?_concat _
  · set st2 := upsertScreen st1 p2 false now2 with hst2
    have hlen : st2.history.length = st1.history.length + 1 := by rw [hhist2]; simp
    have hidx : ((st2.history.length : Int) - 1).toNat = st1.history.length := by
      rw [hlen]; simp
    have hget : st2.history[((st2.history.length : Int) - 1).toNat]?
        = some { timestamp := now2, screens := st1.screens } := by
      rw [hidx, hhist2]
      exact List.getElem?_concat_length _ _
    have hscr : (restoreVersion st2 ((st2.history.length : Int) - 1)).screens
        = st1.screens := by
      unfold restoreVersion
      rw [if_pos (by rw [hlen]; omega), hget]
    rw [hscr]
    exact hmem

/-- Witness for `history_snapshot_contains_placeholder`: an empty
store, a placeholder upsert and a recording upsert. -/
theorem history_snapshot_contains_placeholder_witness :
    ∃ s ∈ (upsertScreen { screens := [], history := [] }
        { id := "s1", name := some "Designing..." } true 1).screens,
      s.id = "s1" ∧ s.name = "Designing..." :=
  (history_snapshot_contains_placeholder { screens := [], history := [] }
    "s1" "Designing..." 1 2 { id := "s1", html := some "<p>" } (by simp)).1


/-! ### Frame decoder lemmas -/

theorem splitFrame_length {b : List Char} {pre post : List Char}
    (h : splitFrame b = some (pre, post)) : post.length + 2 ≤ b.length := by
  induction b generalizing pre with
  | nil => simp [splitFrame] at h
  | cons c tail ih =>
    cases tail with
    | nil => simp [splitFrame] at h
    | cons d rest =>
      rw [splitFrame] at h
      split at h
      · obtain ⟨h1, h2⟩ := Option.some.injEq .. ▸ h
        cases h
        simp
      · rcases ho : splitFrame (d :: rest) with _ | ⟨pre', post'⟩
        · rw [ho] at h; simp at h
        · rw [ho] at h
          simp only [Option.map_some'] at h
          cases h
          have := ih ho
          simpa using Nat.le_succ_of_le this

theorem splitFrame_append {b : List Char} {pre post : List Char} (e : List Char)
    (h : splitFrame b = some (pre, post)) :
    splitFrame (b ++ e) = some (pre, post ++ e) := by
  induction b generalizing pre with
  | nil => simp [splitFrame] at h
  | cons c tail ih =>
    cases tail with
    | nil => simp [splitFrame] at h
    | cons d rest =>
      rw [splitFrame] at h
      rw [List.cons_append, List.cons_append, splitFrame]
      split at h
      · cases h
        rename_i hnl
        rw [if_pos hnl]
      · rename_i hnl
        rw [if_neg hnl]
        rcases ho : splitFrame (d :: rest) with _ | ⟨pre', post'⟩
        · rw [ho] at h; simp at h
        · rw [ho] at h
          simp only [Option.map_some'] at h
          cases h
          rw [← List.cons_append, ih ho]
          rfl

theorem drainFuel_congr (f1 : Nat) : ∀ (f2 : Nat) (b : List Char),
    b.length ≤ f1 → b.length ≤ f2 → drainFuel f1 b = drainFuel f2 b := by
  induction f1 with
  | zero =>
    intro f2 b h1 _
    have hb : b = [] := List.eq_nil_of_length_eq_zero (Nat.le_zero.mp h1)
    subst hb
    cases f2 <;> rfl
  | succ f1 ih =>
    intro f2 b h1 h2
    cases f2 with
    | zero =>
      have hb : b = [] := List.eq_nil_of_length_eq_zero (Nat.le_zero.mp h2)
      subst hb
      rfl
    | succ f2 =>
      rw [drainFuel, drainFuel]
      rcases hsf : splitFrame b with _ | ⟨rawEvent, rest⟩
      · rfl
      · have hlen := splitFrame_length hsf
        have hp1 : rest.length ≤ f1 := by omega
        have hp2 : rest.length ≤ f2 := by omega
        dsimp only
        rw [ih f2 rest hp1 hp2]

theorem drain_unfold (b : List Char) :
    drain b =
      match splitFrame b with
      | none => ⟨[], b, false⟩
      | some (rawEvent, rest) =>
        if (frameDataLines rawEvent).isEmpty then drain rest
        else if frameData rawEvent = "[DONE]".toList then ⟨[], rest, true⟩
        else
          ⟨frameData rawEvent :: (drain rest).out, (drain rest).rem, (drain rest).done⟩ := by
  rcases hsf : splitFrame b with _ | ⟨rawEvent, rest⟩
  · unfold drain
    cases hl : b.length with
    | zero => rfl
    | succ n => rw [drainFuel, hsf]
  · have hlen := splitFrame_length hsf
    unfold drain
    have hl : ∃ n, b.length = n + 1 := ⟨b.length - 1, by omega⟩
    obtain ⟨n, hn⟩ := hl
    rw [hn, drainFuel, hsf]
    have hc : drainFuel n rest = drainFuel rest.length rest :=
      drainFuel_congr n rest.length rest (by omega) (le_refl _)
    dsimp only
    rw [hc]

theorem drain_rem_nosep_aux : ∀ (n : Nat) (b : List Char), b.length ≤ n →
    (drain b).done = false → splitFrame (drain b).rem = none := by
  intro n
  induction n with
  | zero =>
    intro b hb _
    have hbnil : b = [] := List.eq_nil_of_length_eq_zero (Nat.le_zero.mp hb)
    subst hbnil
    rfl
  | succ n ih =>
    intro b hb hdone
    rw [drain_unfold b] at hdone ⊢
    rcases hsf : splitFrame b with _ | ⟨rawEvent, rest⟩
    · exact hsf
    · rw [hsf] at hdone
      have hlen := splitFrame_length hsf
      have hrest : rest.length ≤ n := by omega
      dsimp only at hdone
      dsimp only
      by_cases hdl : (frameDataLines rawEvent).isEmpty = true
      · rw [if_pos hdl] at hdone ⊢
        exact ih rest hrest hdone
      · rw [if_neg hdl] at hdone ⊢
        by_cases hd2 : frameData rawEvent = "[DONE]".toList
        · rw [if_pos hd2] at hdone
          simp at hdone
        · rw [if_neg hd2] at hdone ⊢
          exact ih rest hrest hdone

theorem drain_rem_nosep (b : List Char) (h : (drain b).done = false) :
    splitFrame (drain b).rem = none :=
  drain_rem_nosep_aux b.length b (le_refl _) h

theorem drain_append_done_aux : ∀ (n : Nat) (b e : List Char), b.length ≤ n →
    (drain b).done = true →
    (drain (b ++ e)).out = (drain b).out ∧ (drain (b ++ e)).done = true := by
  intro n
  induction n with
  | zero =>
    intro b e hb hdone
    have hbnil : b = [] := List.eq_nil_of_length_eq_zero (Nat.le_zero.mp hb)
    subst hbnil
    simp [drain, drainFuel] at hdone
  | succ n ih =>
    intro b e hb hdone
    rw [drain_unfold b] at hdone ⊢
    rw [drain_unfold (b ++ e)]
    rcases hsf : splitFrame b with _ | ⟨rawEvent, rest⟩
    · rw [hsf] at hdone
      simp at hdone
    · rw [hsf] at hdone
      rw [splitFrame_append e hsf]
      have hlen := splitFrame_length hsf
      have hrest : rest.length ≤ n := by omega
      dsimp only at hdone ⊢
      by_cases hdl : (frameDataLines rawEvent).isEmpty = true
      · simp only [if_pos hdl] at hdone ⊢
        exact ih rest e hrest hdone
      · simp only [if_neg hdl] at hdone ⊢
        by_cases hd2 : frameData rawEvent = "[DONE]".toList
        · rw [if_pos hd2]
          rw [if_pos hd2]
          exact ⟨rfl, rfl⟩
        · simp only [if_neg hd2] at hdone ⊢
          exact ⟨congrArg (frameData rawEvent :: ·) (ih rest e hrest hdone).1,
            (ih rest e hrest hdone).2⟩

theorem drain_append_cont_aux : ∀ (n : Nat) (b e : List Char), b.length ≤ n →
    (drain b).done = false →
    drain (b ++ e) =
      ⟨(drain b).out ++ (drain ((drain b).rem ++ e)).out,
        (drain ((drain b).rem ++ e)).rem, (drain ((drain b).rem ++ e)).done⟩ := by
  intro n
  induction n with
  | zero =>
    intro b e hb _
    have hbnil : b = [] := List.eq_nil_of_length_eq_zero (Nat.le_zero.mp hb)
    subst hbnil
    simp [drain, drainFuel]
  | succ n ih =>
    intro b e hb hdone
    rw [drain_unfold b] at hdone ⊢
    rcases hsf : splitFrame b with _ | ⟨rawEvent, rest⟩
    · simp
    · rw [hsf] at hdone
      rw [drain_unfold (b ++ e), splitFrame_append e hsf]
      have hlen := splitFrame_length hsf
      have hrest : rest.length ≤ n := by omega
      dsimp only at hdone ⊢
      by_cases hdl : (frameDataLines rawEvent).isEmpty = true
      · simp only [if_pos hdl] at hdone ⊢
        exact ih rest e hrest hdone
      · simp only [if_neg hdl] at hdone ⊢
        by_cases hd2 : frameData rawEvent = "[DONE]".toList
        · simp only [if_pos hd2] at hdone
          simp at hdone
        · simp only [if_neg hd2] at hdone ⊢
          rw [ih rest e hrest hdone]
          simp

/-- Composition of one drain over an appended buffer, `done` case. -/
theorem drain_append_done (b e : List Char) (h : (drain b).done = true) :
    (drain (b ++ e)).out = (drain b).out ∧ (drain (b ++ e)).done = true :=
  drain_append_done_aux b.length b e (le_refl _) h

/-- Composition of one drain over an appended buffer, continue case. -/
theorem drain_append_cont (b e : List Char) (h : (drain b).done = false) :
    drain (b ++ e) =
      ⟨(drain b).out ++ (drain ((drain b).rem ++ e)).out,
        (drain ((drain b).rem ++ e)).rem, (drain ((drain b).rem ++ e)).done⟩ :=
  drain_append_cont_aux b.length b e (le_refl _) h

theorem stripCR_append (a b : List Char) :
    stripCR (a ++ b) = stripCR a ++ stripCR b :=
  List.filter_append ..

theorem runSSEFrom_done : ∀ (cs : List (List Char)) (st : SSEState),
    st.streamDone = true → runSSEFrom st cs = (st, []) := by
  intro cs
  induction cs with
  | nil => intro st _; rfl
  | cons c cs ih =>
    intro st h
    rw [runSSEFrom]
    simp [feedChunk, h, ih st h]

theorem runSSEFrom_eq_drain : ∀ (cs : List (List Char)) (buf : List Char),
    splitFrame buf = none →
    (runSSEFrom ⟨buf, false⟩ cs).2 = (drain (buf ++ stripCR cs.flatten)).out := by
  intro cs
  induction cs with
  | nil =>
    intro buf hb
    have hnil : buf ++ stripCR List.nil.flatten = buf := by simp [stripCR]
    rw [runSSEFrom, hnil, drain_unfold buf, hb]
  | cons c cs ih =>
    intro buf hb
    have hjoin : buf ++ stripCR (c :: cs).flatten
        = (buf ++ stripCR c) ++ stripCR cs.flatten := by
      rw [List.flatten_cons, stripCR_append, List.append_assoc]
    rw [runSSEFrom, hjoin]
    have hfeed : feedChunk ⟨buf, false⟩ c
        = (⟨(drain (buf ++ stripCR c)).rem, (drain (buf ++ stripCR c)).done⟩,
            (drain (buf ++ stripCR c)).out) := by
      simp [feedChunk]
    rw [hfeed]
    cases hd : (drain (buf ++ stripCR c)).done with
    | true =>
      dsimp only
      rw [runSSEFrom_done cs ⟨(drain (buf ++ stripCR c)).rem, true⟩ rfl]
      have hdon := drain_append_done (buf ++ stripCR c) (stripCR cs.flatten) hd
      simp only [List.append_nil]
      exact hdon.1.symm
    | false =>
      dsimp only
      have hnos := drain_rem_nosep (buf ++ stripCR c) hd
      have hih := ih (drain (buf ++ stripCR c)).rem hnos
      have hcont := drain_append_cont (buf ++ stripCR c) (stripCR cs.flatten) hd
      rw [hcont]
      dsimp only
      rw [hih]

/-- **C3.** For every finite sequence of text chunks and every
re-partitioning of the same concatenated text into different chunks
(one chunk, one character per chunk, splits falling mid-line or
mid-separator), the frame decoding loop of `parseSSEStream` produces
the identical ordered sequence of payload strings passed on to the
chunk handler. -/
theorem parseSSE_chunking_invariant (cs1 cs2 : List (List Char))
    (h : cs1.flatten = cs2.flatten) : runSSE cs1 = runSSE cs2 := by
  unfold runSSE
  rw [runSSEFrom_eq_drain cs1 [] rfl, runSSEFrom_eq_drain cs2 [] rfl, h]

/-- Witness for `parseSSE_chunking_invariant`: a two-frame stream sent
as one chunk versus split across four chunks (mid-line and
mid-separator), with the concrete decoded payload sequence. -/
theorem parseSSE_chunking_invariant_witness :
    runSSE ["data: a\n\ndata: b\n\n".toList]
        = runSSE ["data: a\n".toList, "\nd".toList, "ata: b".toList, "\n\n".toList]
      ∧ runSSE ["data: a\n\ndata: b\n\n".toList] = [['a'], ['b']] :=
  ⟨parseSSE_chunking_invariant _ _ (by decide), by decide⟩

/-! ### Tracker lemmas -/

theorem updateToolName_toolCallId (inv : ToolInvocation) (tn : Option String) :
    (updateToolName inv tn).toolCallId = inv.toolCallId := by
  unfold updateToolName
  split <;> rfl

theorem updateToolName_none (inv : ToolInvocation) :
    updateToolName inv none = inv := by
  unfold updateToolName
  simp [strTruthy]

theorem updateToolName_of_truthy (inv : ToolInvocation) (tn : Option String)
    (h : strTruthy inv.toolName = true) : updateToolName inv tn = inv := by
  unfold updateToolName
  simp [h]

theorem findInv_toolCallId : ∀ {l : List ToolInvocation} {tcid : String}
    {inv : ToolInvocation}, findInv l tcid = some inv → inv.toolCallId = tcid := by
  intro l
  induction l with
  | nil => intro tcid inv h; simp [findInv] at h
  | cons hd rest ih =>
    intro tcid inv h
    rw [findInv] at h
    split at h
    · cases h
      assumption
    · exact ih h

theorem getOrCreate_of_find_none : ∀ {l : List ToolInvocation} {tcid : String}
    (tn : Option String), findInv l tcid = none →
    getOrCreateInvocation l tcid tn
      = (l ++ [freshInvocation tcid tn], freshInvocation tcid tn) := by
  intro l
  induction l with
  | nil => intro tcid tn _; rfl
  | cons hd rest ih =>
    intro tcid tn h
    rw [findInv] at h
    split at h
    · simp at h
    · rename_i hc
      rw [getOrCreateInvocation, if_neg hc, ih tn h]
      rfl

theorem getOrCreate_of_find_some : ∀ {l : List ToolInvocation} {tcid : String}
    {inv : ToolInvocation} (tn : Option String), findInv l tcid = some inv →
    getOrCreateInvocation l tcid tn
      = (setFirstInv l tcid (updateToolName inv tn), updateToolName inv tn) := by
  intro l
  induction l with
  | nil => intro tcid inv tn h; simp [findInv] at h
  | cons hd rest ih =>
    intro tcid inv tn h
    rw [findInv] at h
    split at h
    · rename_i hc
      cases h
      rw [getOrCreateInvocation, if_pos hc, setFirstInv, if_pos hc]
    · rename_i hc
      rw [getOrCreateInvocation, if_neg hc, setFirstInv, if_neg hc, ih tn h]

theorem findInv_append : ∀ (l : List ToolInvocation) (x : ToolInvocation)
    (tcid : String),
    findInv (l ++ [x]) tcid
      = match findInv l tcid with
        | some i => some i
        | none => if x.toolCallId = tcid then some x else none := by
  intro l x tcid
  induction l with
  | nil => rfl
  | cons hd rest ih =>
    rw [List.cons_append, findInv, findInv]
    split
    · rfl
    · exact ih

theorem findInv_setFirstInv_self : ∀ {l : List ToolInvocation} {tcid : String}
    {inv : ToolInvocation} (newInv : ToolInvocation),
    findInv l tcid = some inv → newInv.toolCallId = tcid →
    findInv (setFirstInv l tcid newInv) tcid = some newInv := by
  intro l
  induction l with
  | nil => intro tcid inv newInv h _; simp [findInv] at h
  | cons hd rest ih =>
    intro tcid inv newInv h hn
    rw [findInv] at h
    rw [setFirstInv]
    split at h
    · rename_i hc
      rw [if_pos hc, findInv, if_pos hn]
    · rename_i hc
      rw [if_neg hc, findInv, if_neg hc]
      exact ih newInv h hn

theorem findInv_setFirstInv_other : ∀ (l : List ToolInvocation)
    (tcid tcid' : String) (newInv : ToolInvocation),
    newInv.toolCallId = tcid → tcid' ≠ tcid →
    findInv (setFirstInv l tcid newInv) tcid' = findInv l tcid' := by
  intro l
  induction l with
  | nil => intro tcid tcid' newInv _ _; rfl
  | cons hd rest ih =>
    intro tcid tcid' newInv hn hne
    rw [setFirstInv]
    split
    · rename_i hc
      rw [findInv, findInv]
      rw [if_neg (show ¬newInv.toolCallId = tcid' from fun h => hne (h.symm.trans hn))]
      rw [if_neg (show ¬hd.toolCallId = tcid' from fun h => hne (h.symm.trans hc))]
    · rw [findInv, findInv]
      split
      · rfl
      · exact ih tcid tcid' newInv hn hne

theorem handleChunk_inputStart_invocations (s : HandlerState) (tcid tn : String)
    (now : Nat) :
    (handleChunk s (.toolInputStart tcid tn) now).invocations
      = (getOrCreateInvocation s.invocations tcid (some tn)).1 := by
  simp only [handleChunk]
  split <;> rfl

theorem handleChunk_inputAvailable_invocations (s : HandlerState) (tcid tn : String)
    (input : Option ToolPayload) (now : Nat) :
    (handleChunk s (.toolInputAvailable tcid tn input) now).invocations
      = setFirstInv (getOrCreateInvocation s.invocations tcid (some tn)).1 tcid
          { (getOrCreateInvocation s.invocations tcid (some tn)).2 with
              args := input, state := InvState.call } := by
  simp only [handleChunk]
  split
  · rcases input with _ | inp
    · rfl
    · dsimp only
      cases hi : inp.id <;> rfl
  · rfl

theorem handleChunk_outputAvailable_invocations (s : HandlerState) (tcid : String)
    (output : Option ToolPayload) (now : Nat) :
    (handleChunk s (.toolOutputAvailable tcid output) now).invocations
      = setFirstInv (getOrCreateInvocation s.invocations tcid none).1 tcid
          { (getOrCreateInvocation s.invocations tcid none).2 with
              state := InvState.result, result := output } := by
  simp only [handleChunk]
  split
  · rcases output with _ | o
    · rfl
    · dsimp only
      cases hi : o.id <;> rfl
  · split
    · rcases output with _ | o
      · rfl
      · dsimp only
        cases hi : o.index <;> rfl
    · rfl

theorem handleChunk_outputError_invocations (s : HandlerState) (tcid err : String)
    (now : Nat) :
    (handleChunk s (.toolOutputError tcid err) now).invocations
      = setFirstInv (getOrCreateInvocation s.invocations tcid none).1 tcid
          { (getOrCreateInvocation s.invocations tcid none).2 with
              state := InvState.error, errorText := some err } := by
  simp only [handleChunk]
  split <;> rfl

theorem keeps_toolName_getOrCreate (l : List ToolInvocation) (tcid2 : String)
    (tn : Option String) (tcid : String) (inv : ToolInvocation) (nm : String)
    (hf : findInv l tcid = some inv) (hn : inv.toolName = some nm) (hne : nm ≠ "") :
    findInv (getOrCreateInvocation l tcid2 tn).1 tcid = some inv := by
  have htr : strTruthy inv.toolName = true := by rw [hn]; simp [strTruthy, hne]
  by_cases hcc : tcid2 = tcid
  · subst hcc
    rw [getOrCreate_of_find_some tn hf]
    rw [updateToolName_of_truthy inv tn htr]
    exact findInv_setFirstInv_self inv hf (findInv_toolCallId hf)
  · rcases hf2 : findInv l tcid2 with _ | j
    · rw [getOrCreate_of_find_none tn hf2]
      rw [findInv_append, hf]
    · rw [getOrCreate_of_find_some tn hf2]
      rw [findInv_setFirstInv_other l tcid2 tcid _
        ((updateToolName_toolCallId j tn).trans (findInv_toolCallId hf2))
        (fun h => hcc h.symm)]
      exact hf

theorem getOrCreate_snd_toolCallId : ∀ (l : List ToolInvocation) (tcid : String)
    (tn : Option String), ((getOrCreateInvocation l tcid tn).2).toolCallId = tcid := by
  intro l
  induction l with
  | nil => intro tcid tn; rfl
  | cons hd rest ih =>
    intro tcid tn
    rw [getOrCreateInvocation]
    split
    · rename_i hc
      exact (updateToolName_toolCallId hd tn).trans hc
    · exact ih tcid tn

theorem keeps_toolName_track (l : List ToolInvocation) (tcid2 : String)
    (tn : Option String) (f : ToolInvocation → ToolInvocation)
    (hfto : ∀ i, (f i).toolCallId = i.toolCallId)
    (hftn : ∀ i, (f i).toolName = i.toolName)
    {tcid : String} {inv : ToolInvocation} {nm : String}
    (hf : findInv l tcid = some inv) (hn : inv.toolName = some nm) (hne : nm ≠ "") :
    ∃ inv', findInv (setFirstInv (getOrCreateInvocation l tcid2 tn).1 tcid2
        (f (getOrCreateInvocation l tcid2 tn).2)) tcid = some inv'
      ∧ inv'.toolName = some nm := by
  have htr : strTruthy inv.toolName = true := by rw [hn]; simp [strTruthy, hne]
  by_cases hcc : tcid2 = tcid
  · subst hcc
    rw [getOrCreate_of_find_some tn hf]
    rw [updateToolName_of_truthy inv tn htr]
    refine ⟨f inv, ?_, (hftn inv).trans hn⟩
    exact findInv_setFirstInv_self (f inv)
      (findInv_setFirstInv_self inv hf (findInv_toolCallId hf))
      ((hfto inv).trans (findInv_toolCallId hf))
  · refine ⟨inv, ?_, hn⟩
    rw [findInv_setFirstInv_other _ tcid2 tcid _
      ((hfto _).trans (getOrCreate_snd_toolCallId l tcid2 tn))
      (fun h => hcc h.symm)]
    exact keeps_toolName_getOrCreate l tcid2 tn tcid inv nm hf hn hne

theorem handleChunk_keeps_toolName (s : HandlerState) (c : Chunk) (now : Nat)
    {tcid : String} {inv : ToolInvocation} {nm : String}
    (hf : findInv s.invocations tcid = some inv)
    (hn : inv.toolName = some nm) (hne : nm ≠ "") :
    ∃ inv', findInv (handleChunk s c now).invocations tcid = some inv'
      ∧ inv'.toolName = some nm := by
  cases c with
  | textDelta d => exact ⟨inv, hf, hn⟩
  | toolInputStart tcid2 tn =>
    rw [handleChunk_inputStart_invocations]
    exact ⟨inv, keeps_toolName_getOrCreate _ tcid2 (some tn) tcid inv nm hf hn hne, hn⟩
  | dataEditingStart sid? tcid? =>
    rcases sid? with _ | sid <;> rcases tcid? with _ | tc <;> exact ⟨inv, hf, hn⟩
  | toolInputAvailable tcid2 tn input =>
    rw [handleChunk_inputAvailable_invocations]
    exact keeps_toolName_track _ tcid2 (some tn)
      (fun i => { i with args := input, state := InvState.call })
      (fun i => rfl) (fun i => rfl) hf hn hne
  | toolOutputAvailable tcid2 output =>
    rw [handleChunk_outputAvailable_invocations]
    exact keeps_toolName_track _ tcid2 none
      (fun i => { i with state := InvState.result, result := output })
      (fun i => rfl) (fun i => rfl) hf hn hne
  | toolOutputError tcid2 err =>
    rw [handleChunk_outputError_invocations]
    exact keeps_toolName_track _ tcid2 none
      (fun i => { i with state := InvState.error, errorText := some err })
      (fun i => rfl) (fun i => rfl) hf hn hne
  | errorChunk e => exact ⟨inv, hf, hn⟩
  | other => exact ⟨inv, hf, hn⟩

/-- **C10.** (Implicit claim.)  Once an invocation's `toolName` has been
set to a non-empty value, no later chunk for any call id can change it:
`getOrCreateInvocation` only assigns `toolName` when the existing record
has none (or an empty one), so the first observed non-empty `toolName`
wins for the invocation's whole lifetime. -/
theorem toolName_first_write_wins : ∀ (chunks : List (Chunk × Nat))
    (s : HandlerState) (tcid : String) (inv : ToolInvocation) (nm : String),
    findInv s.invocations tcid = some inv → inv.toolName = some nm → nm ≠ "" →
    ∃ inv', findInv (runChunks s chunks).invocations tcid = some inv'
      ∧ inv'.toolName = some nm := by
  intro chunks
  induction chunks with
  | nil => intro s tcid inv nm hf hn hne; exact ⟨inv, hf, hn⟩
  | cons cn rest ih =>
    intro s tcid inv nm hf hn hne
    obtain ⟨c, now⟩ := cn
    obtain ⟨inv1, hf1, hn1⟩ := handleChunk_keeps_toolName s c now hf hn hne
    rw [runChunks]
    exact ih (handleChunk s c now) tcid inv1 nm hf1 hn1 hne

/-- Witness for `toolName_first_write_wins`: an invocation named
`upsertScreen` keeps its name across a later `tool-input-start` carrying
a different tool name for the same call id. -/
theorem toolName_first_write_wins_witness :
    ∃ inv', findInv (runChunks
        { content := ""
          invocations := [{ toolCallId := "call1", toolName := some "upsertScreen",
                            state := .call }]
          toolCallIdToScreenId := []
          store := { screens := [], history := [] }
          editingScreenId := none
          isDesigning := false }
        [(Chunk.toolInputStart "call1" "generateImage", 5)]).invocations "call1"
      = some inv' ∧ inv'.toolName = some "upsertScreen" :=
  toolName_first_write_wins [(Chunk.toolInputStart "call1" "generateImage", 5)]
    _ "call1" { toolCallId := "call1", toolName := some "upsertScreen", state := .call }
    "upsertScreen" (by decide) rfl (by decide)

theorem handleChunk_outputAvailable_upsert_eq (s : HandlerState) (tcid : String)
    (o : ToolPayload) (i : String) (now : Nat) (inv : ToolInvocation)
    (hf : findInv s.invocations tcid = some inv)
    (htn : inv.toolName = some "upsertScreen")
    (hid : o.id = some i) :
    handleChunk s (.toolOutputAvailable tcid (some o)) now
      = { content := s.content
          invocations := setFirstInv (setFirstInv s.invocations tcid inv) tcid
              { inv with state := InvState.result, result := some o }
          toolCallIdToScreenId := mapDelete s.toolCallIdToScreenId tcid
          store := upsertScreen s.store
              { id := i, name := o.name, html := o.html, css := o.css } false now
          editingScreenId := none
          isDesigning := false } := by
  simp only [handleChunk]
  rw [getOrCreate_of_find_some none hf, updateToolName_none]
  dsimp only
  rw [if_pos htn]
  simp only [hid]

theorem handleChunk_inputStart_upsert_fresh (s : HandlerState) (tcid : String)
    (now : Nat) (hfresh : findInv s.invocations tcid = none) :
    handleChunk s (.toolInputStart tcid "upsertScreen") now
      = { s with invocations := s.invocations ++ [freshInvocation tcid (some "upsertScreen")],
                 isDesigning := true } := by
  simp only [handleChunk]
  rw [getOrCreate_of_find_none (some "upsertScreen") hfresh]
  simp

theorem handleChunk_editingStart_eq (s : HandlerState) (sid tcid : String) (now : Nat) :
    handleChunk s (.dataEditingStart (some sid) (some tcid)) now
      = { s with toolCallIdToScreenId := mapSet s.toolCallIdToScreenId tcid sid,
                 editingScreenId := some sid,
                 store := upsertScreen s.store { id := sid, name := some "Designing..." } true now } :=
  rfl

theorem handleChunk_outputError_upsert_eq (s : HandlerState) (tcid err : String)
    (now : Nat) (inv : ToolInvocation)
    (hf : findInv s.invocations tcid = some inv)
    (htn : inv.toolName = some "upsertScreen") :
    handleChunk s (.toolOutputError tcid err) now
      = { s with
            invocations := setFirstInv (setFirstInv s.invocations tcid inv) tcid
                             ({ inv with state := InvState.error, errorText := some err }),
            toolCallIdToScreenId := mapDelete s.toolCallIdToScreenId tcid,
            editingScreenId := none,
            isDesigning := false } := by
  simp only [handleChunk]
  rw [getOrCreate_of_find_some none hf, updateToolName_none]
  dsimp only
  rw [if_pos htn]

/-- **C1** (amended).  Terminal invocation states are not immutable:
for an invocation already in state `result` or `error` whose `toolName`
is `upsertScreen`, a further `tool-output-available` event for the same
call id (with an output carrying an id) re-enters state `result`,
overwrites `result`, and re-invokes the Document Store upsert with
history recorded, so `history.length` grows by one again. -/
theorem terminal_output_event_refires (s : HandlerState) (tcid : String)
    (o : ToolPayload) (i : String) (now : Nat) (inv : ToolInvocation)
    (hf : findInv s.invocations tcid = some inv)
    (htn : inv.toolName = some "upsertScreen")
    (hterm : inv.state = InvState.result ∨ inv.state = InvState.error)
    (hid : o.id = some i) :
    (handleChunk s (.toolOutputAvailable tcid (some o)) now).store
        = upsertScreen s.store { id := i, name := o.name, html := o.html, css := o.css } false now
      ∧ (handleChunk s (.toolOutputAvailable tcid (some o)) now).store.history.length
        = s.store.history.length + 1
      ∧ findInv (handleChunk s (.toolOutputAvailable tcid (some o)) now).invocations tcid
        = some { inv with state := InvState.result, result := some o } := by
  rw [handleChunk_outputAvailable_upsert_eq s tcid o i now inv hf htn hid]
  refine ⟨rfl, ?_, ?_⟩
  · dsimp only
    rw [upsertScreen_history_record]
    simp
  · dsimp only
    exact findInv_setFirstInv_self _
      (findInv_setFirstInv_self inv hf (findInv_toolCallId hf))
      (by dsimp only; exact findInv_toolCallId hf)

/-- Witness for `terminal_output_event_refires`: a concrete handler
state holding one terminal `upsertScreen` invocation, hit by a second
`tool-output-available`. -/
theorem terminal_output_event_refires_witness :
    (handleChunk
        { content := ""
          invocations := [{ toolCallId := "call1", toolName := some "upsertScreen",
                            state := .result, result := some { id := some "s1", name := some "A" } }]
          toolCallIdToScreenId := []
          store := { screens := [], history := [] }
          editingScreenId := none
          isDesigning := false }
        (.toolOutputAvailable "call1" (some { id := some "s1", name := some "B" })) 7).store.history.length
      = 0 + 1 :=
  (terminal_output_event_refires _ "call1" { id := some "s1", name := some "B" } "s1" 7
    { toolCallId := "call1", toolName := some "upsertScreen",
      state := .result, result := some { id := some "s1", name := some "A" } }
    (by decide) rfl (Or.inl rfl) rfl).2.1

/-- **C1** counterexample: as stated, the claim is false on the code.
From a fresh state, `tool-input-start` then `tool-output-available`
leave the invocation terminal (state `result`, one history entry); a
second `tool-output-available` for the same call id nevertheless
overwrites `result` and pushes history again, where the claim requires
the invocation and the Document Store to be left untouched. -/
theorem terminal_event_counterexample :
    (findInv (runChunks
        { content := "", invocations := [], toolCallIdToScreenId := [],
          store := { screens := [], history := [] },
          editingScreenId := none, isDesigning := false }
        [(Chunk.toolInputStart "call1" "upsertScreen", 0),
         (Chunk.toolOutputAvailable "call1"
            (some { id := some "s1", name := some "A", html := some "<d>", css := some "" }), 1)]).invocations
        "call1").map (fun i => i.state) = some InvState.result
      ∧ (handleChunk (runChunks
          { content := "", invocations := [], toolCallIdToScreenId := [],
            store := { screens := [], history := [] },
            editingScreenId := none, isDesigning := false }
          [(Chunk.toolInputStart "call1" "upsertScreen", 0),
           (Chunk.toolOutputAvailable "call1"
              (some { id := some "s1", name := some "A", html := some "<d>", css := some "" }), 1)])
          (Chunk.toolOutputAvailable "call1" (some { id := some "s1", name := some "B" })) 2).store.history.length
        = (runChunks
          { content := "", invocations := [], toolCallIdToScreenId := [],
            store := { screens := [], history := [] },
            editingScreenId := none, isDesigning := false }
          [(Chunk.toolInputStart "call1" "upsertScreen", 0),
           (Chunk.toolOutputAvailable "call1"
              (some { id := some "s1", name := some "A", html := some "<d>", css := some "" }), 1)]).store.history.length + 1
      ∧ (findInv (handleChunk (runChunks
          { content := "", invocations := [], toolCallIdToScreenId := [],
            store := { screens := [], history := [] },
            editingScreenId := none, isDesigning := false }
          [(Chunk.toolInputStart "call1" "upsertScreen", 0),
           (Chunk.toolOutputAvailable "call1"
              (some { id := some "s1", name := some "A", html := some "<d>", css := some "" }), 1)])
          (Chunk.toolOutputAvailable "call1" (some { id := some "s1", name := some "B" })) 2).invocations
          "call1").map (fun i => i.result)
        ≠ (findInv (runChunks
          { content := "", invocations := [], toolCallIdToScreenId := [],
            store := { screens := [], history := [] },
            editingScreenId := none, isDesigning := false }
          [(Chunk.toolInputStart "call1" "upsertScreen", 0),
           (Chunk.toolOutputAvailable "call1"
              (some { id := some "s1", name := some "A", html := some "<d>", css := some "" }), 1)]).invocations
          "call1").map (fun i => i.result) := by
  refine ⟨by decide, by decide, by decide⟩

/-- **C2** (amended).  After an early-extraction signal
(`data-editing-start`) for a fresh call id whose invocation was opened
by `tool-input-start` for `upsertScreen`, handling a
`tool-output-error` for that call clears the editing pointer and the
designing flag and performs no Document Store mutation itself: the
store is exactly the one produced by the `skipHistory` placeholder
upsert of the early signal, and in particular the history is unchanged
from before the call's first event.  (The screens set, however, does
carry the placeholder screen — the claim's stronger requirement that
the screens equal their state before the call's first event fails, see
the counterexample.) -/
theorem error_after_early_extraction (s : HandlerState) (tcid sid msg : String)
    (n1 n2 n3 : Nat) (hfresh : findInv s.invocations tcid = none) :
    (handleChunk (handleChunk (handleChunk s (.toolInputStart tcid "upsertScreen") n1)
        (.dataEditingStart (some sid) (some tcid)) n2)
        (.toolOutputError tcid msg) n3).editingScreenId = none
      ∧ (handleChunk (handleChunk (handleChunk s (.toolInputStart tcid "upsertScreen") n1)
          (.dataEditingStart (some sid) (some tcid)) n2)
          (.toolOutputError tcid msg) n3).isDesigning = false
      ∧ (handleChunk (handleChunk (handleChunk s (.toolInputStart tcid "upsertScreen") n1)
          (.dataEditingStart (some sid) (some tcid)) n2)
          (.toolOutputError tcid msg) n3).store
        = upsertScreen s.store { id := sid, name := some "Designing..." } true n2
      ∧ (handleChunk (handleChunk (handleChunk s (.toolInputStart tcid "upsertScreen") n1)
          (.dataEditingStart (some sid) (some tcid)) n2)
          (.toolOutputError tcid msg) n3).store.history
        = s.store.history := by
  rw [handleChunk_inputStart_upsert_fresh s tcid n1 hfresh]
  rw [handleChunk_editingStart_eq]
  have hf2 : findInv (s.invocations ++ [freshInvocation tcid (some "upsertScreen")]) tcid
      = some (freshInvocation tcid (some "upsertScreen")) := by
    rw [findInv_append, hfresh]
    exact if_pos rfl
  rw [handleChunk_outputError_upsert_eq _ tcid msg n3 _ hf2 rfl]
  refine ⟨rfl, rfl, rfl, ?_⟩
  exact upsertScreen_history_skip s.store _ n2

/-- Witness for `error_after_early_extraction` at a concrete state. -/
theorem error_after_early_extraction_witness :
    (handleChunk (handleChunk (handleChunk
        { content := "", invocations := [], toolCallIdToScreenId := [],
          store := { screens := [], history := [] },
          editingScreenId := none, isDesigning := false }
        (.toolInputStart "call1" "upsertScreen") 0)
        (.dataEditingStart (some "s1") (some "call1")) 1)
        (.toolOutputError "call1" "boom") 2).editingScreenId = none
      ∧ (handleChunk (handleChunk (handleChunk
          { content := "", invocations := [], toolCallIdToScreenId := [],
            store := { screens := [], history := [] },
            editingScreenId := none, isDesigning := false }
          (.toolInputStart "call1" "upsertScreen") 0)
          (.dataEditingStart (some "s1") (some "call1")) 1)
          (.toolOutputError "call1" "boom") 2).store.history = [] :=
  ⟨(error_after_early_extraction _ "call1" "s1" "boom" 0 1 2 (by decide)).1,
    (error_after_early_extraction _ "call1" "s1" "boom" 0 1 2 (by decide)).2.2.2⟩

/-- **C2** counterexample: the claim as stated is false on the code.
In the scenario above (fresh call id, `tool-input-start` for
`upsertScreen`, early-extraction signal, then `tool-output-error`), the
editing pointer and designing flag are indeed cleared and the history
is unchanged, but the screens set is not the one from before the
call's first event: the `skipHistory` placeholder created by the early
signal is still present. -/
theorem no_mutation_on_error_counterexample :
    (runChunks
        { content := "", invocations := [], toolCallIdToScreenId := [],
          store := { screens := [], history := [] },
          editingScreenId := none, isDesigning := false }
        [(Chunk.toolInputStart "call1" "upsertScreen", 0),
         (Chunk.dataEditingStart (some "s1") (some "call1"), 1),
         (Chunk.toolOutputError "call1" "boom", 2)]).editingScreenId = none
      ∧ (runChunks
          { content := "", invocations := [], toolCallIdToScreenId := [],
            store := { screens := [], history := [] },
            editingScreenId := none, isDesigning := false }
          [(Chunk.toolInputStart "call1" "upsertScreen", 0),
           (Chunk.dataEditingStart (some "s1") (some "call1"), 1),
           (Chunk.toolOutputError "call1" "boom", 2)]).store.history = []
      ∧ (runChunks
          { content := "", invocations := [], toolCallIdToScreenId := [],
            store := { screens := [], history := [] },
            editingScreenId := none, isDesigning := false }
          [(Chunk.toolInputStart "call1" "upsertScreen", 0),
           (Chunk.dataEditingStart (some "s1") (some "call1"), 1),
           (Chunk.toolOutputError "call1" "boom", 2)]).store.screens
        ≠ ([] : List Screen) := by
  refine ⟨by decide, by decide, by decide⟩

/-! ### Partial argument extractor lemmas -/

theorem onUpsert_sent_mono (st : ExtractState) (tcid2 d : String) (k : String)
    (h : st.sentEditingStart.contains k = true) :
    (onUpsertInputDelta st tcid2 d).1.sentEditingStart.contains k = true := by
  unfold onUpsertInputDelta
  dsimp only
  split
  · exact h
  · split
    · have hmem : k ∈ st.sentEditingStart := by simpa using h
      simp [hmem]
    · exact h

theorem onUpsert_none_of_latched (st : ExtractState) (tcid d : String)
    (h : st.sentEditingStart.contains tcid = true) :
    (onUpsertInputDelta st tcid d).2 = none := by
  unfold onUpsertInputDelta
  dsimp only
  rw [if_pos h]

theorem onUpsert_sent_of_latched (st : ExtractState) (tcid d : String)
    (h : st.sentEditingStart.contains tcid = true) :
    (onUpsertInputDelta st tcid d).1.sentEditingStart = st.sentEditingStart := by
  unfold onUpsertInputDelta
  dsimp only
  rw [if_pos h]

theorem onUpsert_emit_latches (st : ExtractState) (tcid d : String)
    (st' : ExtractState) (v : String)
    (h : onUpsertInputDelta st tcid d = (st', some v)) :
    st'.sentEditingStart.contains tcid = true := by
  unfold onUpsertInputDelta at h
  dsimp only at h
  split at h
  · simp [Prod.ext_iff] at h
  · split at h
    · simp only [Prod.mk.injEq] at h
      rw [← h.1]
      simp
    · simp [Prod.ext_iff] at h

theorem runExtractor_sent_mono : ∀ (ds : List (String × String)) (st : ExtractState)
    (k : String), st.sentEditingStart.contains k = true →
    (runExtractor st ds).1.sentEditingStart.contains k = true := by
  intro ds
  induction ds with
  | nil => intro st k h; exact h
  | cons p rest ih =>
    intro st k h
    obtain ⟨tcid', d⟩ := p
    rw [runExtractor]
    exact ih _ k (onUpsert_sent_mono st tcid' d k h)

theorem runExtractor_none_of_latched : ∀ (ds : List (String × String))
    (st : ExtractState) (tcid : String),
    st.sentEditingStart.contains tcid = true →
    emittedFor tcid (runExtractor st ds).2 = [] := by
  intro ds
  induction ds with
  | nil => intro st tcid _; rfl
  | cons p rest ih =>
    intro st tcid h
    obtain ⟨tcid', d⟩ := p
    rw [runExtractor]
    dsimp only
    rw [emittedFor, List.filter_append]
    have hrest : emittedFor tcid (runExtractor (onUpsertInputDelta st tcid' d).1 rest).2 = [] :=
      ih _ tcid (onUpsert_sent_mono st tcid' d tcid h)
    rw [emittedFor] at hrest
    rw [hrest, List.append_nil]
    by_cases hc : tcid' = tcid
    · subst hc
      rw [onUpsert_none_of_latched st tcid' d h]
      rfl
    · cases hsig : (onUpsertInputDelta st tcid' d).2
      · rfl
      · simp [hc]

theorem runExtractor_latched_after_emit : ∀ (ds : List (String × String))
    (st : ExtractState) (tcid : String),
    emittedFor tcid (runExtractor st ds).2 ≠ [] →
    (runExtractor st ds).1.sentEditingStart.contains tcid = true := by
  intro ds
  induction ds with
  | nil => intro st tcid h; exact absurd rfl h
  | cons p rest ih =>
    intro st tcid h
    obtain ⟨tcid', d⟩ := p
    rw [runExtractor] at h ⊢
    rcases hr : onUpsertInputDelta st tcid' d with ⟨st1, sig⟩
    rw [hr] at h
    dsimp only at h ⊢
    by_cases hrest : emittedFor tcid (runExtractor st1 rest).2 = []
    · rw [emittedFor, List.filter_append] at h
      rw [emittedFor] at hrest
      rw [hrest, List.append_nil] at h
      cases sig with
      | none => simp at h
      | some v =>
        by_cases hc : tcid' = tcid
        · subst hc
          exact runExtractor_sent_mono rest st1 tcid'
            (onUpsert_emit_latches st tcid' d st1 v hr)
        · simp [hc] at h
    · exact ih st1 tcid hrest

theorem runExtractor_len_le_one : ∀ (ds : List (String × String))
    (st : ExtractState) (tcid : String),
    (emittedFor tcid (runExtractor st ds).2).length ≤ 1 := by
  intro ds
  induction ds with
  | nil => intro st tcid; simp [emittedFor, runExtractor]
  | cons p rest ih =>
    intro st tcid
    obtain ⟨tcid', d⟩ := p
    rw [runExtractor]
    rcases hr : onUpsertInputDelta st tcid' d with ⟨st1, sig⟩
    dsimp only
    rw [emittedFor, List.filter_append, List.length_append]
    cases sig with
    | none =>
      have := ih st1 tcid
      rw [emittedFor] at this
      simpa using this
    | some v =>
      by_cases hc : tcid' = tcid
      · subst hc
        have hnone := runExtractor_none_of_latched rest st1 tcid'
          (onUpsert_emit_latches st tcid' d st1 v hr)
        rw [emittedFor] at hnone
        rw [hnone]
        simp
      · have := ih st1 tcid
        rw [emittedFor] at this
        simp only [List.filter_cons]
        simp [hc, this]

theorem runExtractor_append : ∀ (ds ds2 : List (String × String)) (st : ExtractState),
    runExtractor st (ds ++ ds2)
      = ((runExtractor (runExtractor st ds).1 ds2).1,
          (runExtractor st ds).2 ++ (runExtractor (runExtractor st ds).1 ds2).2) := by
  intro ds
  induction ds with
  | nil => intro ds2 st; simp [runExtractor]
  | cons p rest ih =>
    intro ds2 st
    obtain ⟨tcid', d⟩ := p
    rw [List.cons_append, runExtractor, runExtractor]
    dsimp only
    rw [ih ds2 (onUpsertInputDelta st tcid' d).1]
    simp [List.append_assoc]

theorem extractId_first : ∀ (l : List Char) (v : List Char), extractId l = some v →
    ∃ i, matchIdAt (l.drop i) = some v ∧ ∀ j < i, matchIdAt (l.drop j) = none := by
  intro l
  induction l with
  | nil => intro v h; simp [extractId] at h
  | cons c rest ih =>
    intro v h
    rw [extractId] at h
    split at h
    · rename_i w hw
      cases h
      exact ⟨0, by simpa using hw, fun j hj => absurd hj (by omega)⟩
    · rename_i hw
      obtain ⟨i, h1, h2⟩ := ih v h
      refine ⟨i + 1, by simpa using h1, ?_⟩
      intro j hj
      cases j with
      | zero => simpa using hw
      | succ j' => simpa using h2 j' (by omega)

/-- **C7.** For every tool call id and every sequence of input-text
deltas, the partial argument extractor emits at most one
early-extraction signal for that call; once a signal has been emitted,
no later delta produces another signal or changes the emitted list;
and an emitted value is the capture of the first position of the
accumulated buffer at which the tolerant id pattern
(quoted key `id`, optional whitespace, colon, optional whitespace,
non-empty double-quoted value) matches. -/
theorem extractor_emits_at_most_once (st : ExtractState) (tcid : String)
    (ds ds2 : List (String × String)) :
    (emittedFor tcid (runExtractor st ds).2).length ≤ 1
      ∧ (emittedFor tcid (runExtractor st ds).2 ≠ [] →
          emittedFor tcid (runExtractor st (ds ++ ds2)).2
            = emittedFor tcid (runExtractor st ds).2)
      ∧ ∀ (d : String) (st' : ExtractState) (v : String),
          onUpsertInputDelta st tcid d = (st', some v) →
          ∃ w, v = String.mk w
            ∧ ∃ i, matchIdAt ((((mapGet st.upsertInputBuffers tcid).getD "") ++ d).toList.drop i)
                  = some w
                ∧ ∀ j < i,
                    matchIdAt ((((mapGet st.upsertInputBuffers tcid).getD "") ++ d).toList.drop j)
                      = none := by
  refine ⟨runExtractor_len_le_one ds st tcid, ?_, ?_⟩
  · intro hne
    rw [runExtractor_append ds ds2 st]
    dsimp only
    rw [emittedFor, List.filter_append]
    have hl := runExtractor_latched_after_emit ds st tcid hne
    have hn := runExtractor_none_of_latched ds2 (runExtractor st ds).1 tcid hl
    rw [emittedFor] at hn
    rw [hn, List.append_nil]
    rfl
  · intro d st' v h
    unfold onUpsertInputDelta at h
    dsimp only at h
    split at h
    · simp [Prod.ext_iff] at h
    · split at h
      · rename_i w hw
        simp only [Prod.mk.injEq] at h
        exact ⟨w, (Option.some.inj h.2).symm, extractId_first _ w hw⟩
      · simp [Prod.ext_iff] at h

/-- Witness for `extractor_emits_at_most_once`: the id `login` is
extracted from the first delta, and a later delta carrying a different
id neither emits again nor changes the emitted signal. -/
theorem extractor_emits_at_most_once_witness :
    emittedFor "call1" (runExtractor { upsertInputBuffers := [], sentEditingStart := [] }
        ([("call1", "\x7b\"id\": \"login\"")] ++ [("call1", "\x7b\"id\": \"other\"")])).2
      = [("call1", "login")] := by
  have h := (extractor_emits_at_most_once
    { upsertInputBuffers := [], sentEditingStart := [] }
    "call1" [("call1", "\x7b\"id\": \"login\"")] [("call1", "\x7b\"id\": \"other\"")]).2.1
    (by decide)
  rw [h]
  decide
